import Mathlib

/-!
Verification of the zkip repository: a zero-knowledge IP geolocation
exclusion prover.  The development shallowly embeds the Rust sources
(`lib/src/lib.rs`, `program/src/main.rs`, `script/src/bin/main.rs`,
`script/src/bin/evm.rs`) as executable Lean definitions and proves the
specified properties about them.

Machine integers (`u8`, `u16`, `u32`) are modelled as `Nat` with explicit
bounds or `% 2 ^ w` where the source narrows; Rust strings are modelled as
`List Char`; fallible code returns `Option` or `Except String` mirroring
`anyhow::Result`.
-/

set_option maxRecDepth 4000

deriving instance DecidableEq for Except

/-! ## Membership Evaluator (`lib/src/lib.rs`, `is_excluded`)

The Rust source iterates the range list in order and executes
`return false` at the first range containing the address, returning `true`
after a full scan.  The early return is modelled by recursion that stops at
the first match. -/

def is_excluded (ip : Nat) (excluded_ranges : List (Nat × Nat)) : Bool :=
  match excluded_ranges with
  | [] => true
  | (s, e) :: rest => if s ≤ ip ∧ ip ≤ e then false else is_excluded ip rest

/-- Trace-level model of the same loop: the second component counts how many
ranges the loop examines before returning.  A faithful rendering of the
source's control flow (`return false` inside the `for` loop stops the
scan). -/
def is_excluded_trace (ip : Nat) : List (Nat × Nat) → Bool × Nat
  | [] => (true, 0)
  | (s, e) :: rest =>
    if s ≤ ip ∧ ip ≤ e then (false, 1)
    else
      let r := is_excluded_trace ip rest
      (r.1, r.2 + 1)

lemma is_excluded_false_iff (ip : Nat) (ranges : List (Nat × Nat)) :
    is_excluded ip ranges = false ↔ ∃ r ∈ ranges, r.1 ≤ ip ∧ ip ≤ r.2 := by
  induction ranges with
  | nil => simp [is_excluded]
  | cons hd tl ih =>
    obtain ⟨s, e⟩ := hd
    by_cases h : s ≤ ip ∧ ip ≤ e
    · simp [is_excluded, h]
    · simp only [is_excluded, if_neg h, ih, List.mem_cons]
      constructor
      · rintro ⟨r, hr, hm⟩; exact ⟨r, Or.inr hr, hm⟩
      · rintro ⟨r, hr | hr, hm⟩
        · cases hr; exact absurd hm h
        · exact ⟨r, hr, hm⟩

lemma is_excluded_true_iff (ip : Nat) (ranges : List (Nat × Nat)) :
    is_excluded ip ranges = true ↔ ∀ r ∈ ranges, ¬(r.1 ≤ ip ∧ ip ≤ r.2) := by
  rw [← Bool.not_eq_false, not_iff_comm, is_excluded_false_iff]
  push_neg
  simp

/-- C1: for every address `ip` and range list, `is_excluded ip ranges`
returns `false` iff some range `(s, e)` of the list satisfies
`s ≤ ip ≤ e` (inclusive on both bounds) and `true` otherwise; a range with
`s > e` matches no address (inert), and each bound of a well-formed range
is contained in its range. -/
theorem is_excluded_spec :
    (∀ (ip : Nat) (ranges : List (Nat × Nat)),
      (is_excluded ip ranges = false ↔ ∃ r ∈ ranges, r.1 ≤ ip ∧ ip ≤ r.2) ∧
      (is_excluded ip ranges = true ↔ ∀ r ∈ ranges, ¬(r.1 ≤ ip ∧ ip ≤ r.2))) ∧
    (∀ s e ip : Nat, e < s → is_excluded ip [(s, e)] = true) ∧
    (∀ s e : Nat, s ≤ e →
      is_excluded s [(s, e)] = false ∧ is_excluded e [(s, e)] = false) := by
  refine ⟨fun ip ranges => ⟨is_excluded_false_iff ip ranges, is_excluded_true_iff ip ranges⟩,
    fun s e ip h => ?_, fun s e h => ?_⟩
  · rw [is_excluded_true_iff]
    rintro r hr ⟨h1, h2⟩
    simp only [List.mem_singleton] at hr
    subst hr
    omega
  · constructor
    · rw [is_excluded_false_iff]
      exact ⟨(s, e), List.mem_singleton_self _, le_refl s, h⟩
    · rw [is_excluded_false_iff]
      exact ⟨(s, e), List.mem_singleton_self _, h, le_refl e⟩

theorem is_excluded_spec_witness :
    is_excluded 7 [(5, 2)] = true ∧
    is_excluded 5 [(5, 9)] = false ∧ is_excluded 9 [(5, 9)] = false :=
  ⟨is_excluded_spec.2.1 5 2 7 (by decide),
   (is_excluded_spec.2.2 5 9 (by decide)).1,
   (is_excluded_spec.2.2 5 9 (by decide)).2⟩

/-- C2 counterexample: two range lists yielding the same boolean on the same
address make the loop examine different numbers of ranges — the source
short-circuits at the first match, so the evaluation trace distinguishes
which range matched, contradicting the claimed full scan. -/
theorem is_excluded_shortcircuit_counterexample :
    (is_excluded_trace 5 [(0, 10), (20, 30)]).1 =
      (is_excluded_trace 5 [(20, 30), (0, 10)]).1 ∧
    (is_excluded_trace 5 [(0, 10), (20, 30)]).2 ≠
      (is_excluded_trace 5 [(20, 30), (0, 10)]).2 := by decide

/-- C2 (amended): the evaluator short-circuits at the first matching range,
but the boolean it returns is determined solely by whether some range
matches the address — two inputs agreeing on the existence of a match
produce the same boolean, so the result alone reveals nothing about which
range matched. -/
theorem is_excluded_match_blind (ip : Nat) (r1 r2 : List (Nat × Nat))
    (h : (∃ r ∈ r1, r.1 ≤ ip ∧ ip ≤ r.2) ↔ (∃ r ∈ r2, r.1 ≤ ip ∧ ip ≤ r.2)) :
    is_excluded ip r1 = is_excluded ip r2 := by
  by_cases h1 : ∃ r ∈ r1, r.1 ≤ ip ∧ ip ≤ r.2
  · rw [(is_excluded_false_iff ip r1).mpr h1, (is_excluded_false_iff ip r2).mpr (h.mp h1)]
  · have h2 : ¬∃ r ∈ r2, r.1 ≤ ip ∧ ip ≤ r.2 := fun hx => h1 (h.mpr hx)
    have b1 : is_excluded ip r1 = true := by
      cases hb : is_excluded ip r1 with
      | false => exact absurd ((is_excluded_false_iff ip r1).mp hb) h1
      | true => rfl
    have b2 : is_excluded ip r2 = true := by
      cases hb : is_excluded ip r2 with
      | false => exact absurd ((is_excluded_false_iff ip r2).mp hb) h2
      | true => rfl
    rw [b1, b2]

theorem is_excluded_match_blind_witness :
    ((∃ r ∈ [((0 : Nat), (10 : Nat))], r.1 ≤ 5 ∧ 5 ≤ r.2) ↔
      (∃ r ∈ [((3 : Nat), (7 : Nat)), (100, 200)], r.1 ≤ 5 ∧ 5 ≤ r.2)) ∧
    is_excluded 5 [(0, 10)] = is_excluded 5 [(3, 7), (100, 200)] :=
  ⟨by decide, is_excluded_match_blind 5 [(0, 10)] [(3, 7), (100, 200)] (by decide)⟩

/-! ## String primitives shared by the embeddings

Rust strings are modelled as `List Char`.  `splitOnChar` models
`str::split(sep)` for a single-character separator (note `"".split(c)`
yields one empty piece, and separators at the ends yield empty pieces).
`parseNatRust bound` models `str::parse::<uN>()` where `bound = 2 ^ N`:
an optional leading `+`, then one or more decimal digits, rejecting
values that overflow the target type. -/

def splitOnChar (sep : Char) : List Char → List (List Char)
  | [] => [[]]
  | c :: rest =>
    if c = sep then [] :: splitOnChar sep rest
    else
      match splitOnChar sep rest with
      | s :: ss => (c :: s) :: ss
      | [] => [[c]]

def digitsVal (cs : List Char) : Nat :=
  cs.foldl (fun acc c => acc * 10 + (c.toNat - 48)) 0

def parseNatRust (bound : Nat) (s : List Char) : Option Nat :=
  let t := match s with
    | '+' :: rest => rest
    | _ => s
  if t.isEmpty then none
  else if t.all Char.isDigit then
    if digitsVal t < bound then some (digitsVal t) else none
  else none

/-- Decimal rendering of a natural number (the effect of Rust
`format!("{}", n)`), written with explicit fuel so that it is structural
and evaluates by kernel reduction. -/
def toDecimalAux : Nat → Nat → List Char
  | 0, _ => []
  | fuel + 1, n =>
    if n < 10 then [Char.ofNat (48 + n)]
    else toDecimalAux fuel (n / 10) ++ [Char.ofNat (48 + n % 10)]

def toDecimal (n : Nat) : List Char := toDecimalAux (n + 1) n

/-! ## Address Codec (`lib/src/lib.rs`, `ip_to_u32` and `u32_to_ip`) -/

def ip_to_u32 (ip_str : List Char) : Except String Nat :=
  match splitOnChar '.' ip_str with
  | [p0, p1, p2, p3] =>
    match parseNatRust 256 p0 with
    | none => .error "Invalid first octet"
    | some a =>
      match parseNatRust 256 p1 with
      | none => .error "Invalid second octet"
      | some b =>
        match parseNatRust 256 p2 with
        | none => .error "Invalid third octet"
        | some c =>
          match parseNatRust 256 p3 with
          | none => .error "Invalid fourth octet"
          | some d => .ok ((a <<< 24) ||| (b <<< 16) ||| (c <<< 8) ||| d)
  | _ => .error "Invalid IP format: expected 4 octets"

def u32_to_ip (ip : Nat) : List Char :=
  toDecimal ((ip >>> 24) &&& 255) ++ '.' ::
    (toDecimal ((ip >>> 16) &&& 255) ++ '.' ::
      (toDecimal ((ip >>> 8) &&& 255) ++ '.' :: toDecimal (ip &&& 255)))

lemma splitOnChar_ne_nil (sep : Char) (l : List Char) : splitOnChar sep l ≠ [] := by
  induction l with
  | nil => simp [splitOnChar]
  | cons c rest ih =>
    by_cases h : c = sep
    · simp [splitOnChar, h]
    · simp only [splitOnChar, if_neg h]
      cases hs : splitOnChar sep rest with
      | nil => simp
      | cons s ss => simp

lemma splitOnChar_no_sep (sep : Char) (xs : List Char) (h : sep ∉ xs) :
    splitOnChar sep xs = [xs] := by
  induction xs with
  | nil => rfl
  | cons c rest ih =>
    have hc : c ≠ sep := fun hc => h (hc ▸ List.mem_cons_self c rest)
    have hr : sep ∉ rest := fun hr => h (List.mem_cons_of_mem c hr)
    simp only [splitOnChar, if_neg hc, ih hr]

lemma splitOnChar_append (sep : Char) (xs rest : List Char) (h : sep ∉ xs) :
    splitOnChar sep (xs ++ sep :: rest) = xs :: splitOnChar sep rest := by
  induction xs with
  | nil => simp [splitOnChar]
  | cons c tl ih =>
    have hc : c ≠ sep := fun hc => h (hc ▸ List.mem_cons_self c tl)
    have ht : sep ∉ tl := fun hr => h (List.mem_cons_of_mem c hr)
    simp only [List.cons_append, splitOnChar, if_neg hc]
    rw [show tl.append (sep :: rest) = tl ++ sep :: rest from rfl, ih ht]

lemma octet_parse_round : ∀ m < 256, parseNatRust 256 (toDecimal m) = some m := by decide

lemma octet_no_dot : ∀ m < 256, '.' ∉ toDecimal m := by decide

lemma shiftLeft_lor_eq_add (a b k : Nat) (hb : b < 2 ^ k) :
    (a <<< k) ||| b = a * 2 ^ k + b := by
  apply Nat.eq_of_testBit_eq
  intro j
  have h1 : a * 2 ^ k + b = 2 ^ k * a + b := by ring_nf
  rw [h1, Nat.testBit_mul_pow_two_add a hb j, Nat.testBit_lor, Nat.testBit_shiftLeft]
  by_cases hj : j < k
  · have hng : ¬(j ≥ k) := by omega
    simp [hj, hng]
  · have hge : j ≥ k := by omega
    have hb' : Nat.testBit b j = false :=
      Nat.testBit_lt_two_pow (lt_of_lt_of_le hb (Nat.pow_le_pow_right (by norm_num) hge))
    simp [hj, hge, hb']

lemma octets_recombine (a b c d : Nat) (hb : b < 256) (hc : c < 256) (hd : d < 256) :
    (a <<< 24) ||| (b <<< 16) ||| (c <<< 8) ||| d =
      a * 2 ^ 24 + b * 2 ^ 16 + c * 2 ^ 8 + d := by
  have h1 : (c <<< 8) ||| d = c * 2 ^ 8 + d := shiftLeft_lor_eq_add c d 8 (by omega)
  have h2 : (b <<< 16) ||| (c * 2 ^ 8 + d) = b * 2 ^ 16 + (c * 2 ^ 8 + d) :=
    shiftLeft_lor_eq_add b _ 16 (by omega)
  have h3 : (a <<< 24) ||| (b * 2 ^ 16 + (c * 2 ^ 8 + d)) =
      a * 2 ^ 24 + (b * 2 ^ 16 + (c * 2 ^ 8 + d)) :=
    shiftLeft_lor_eq_add a _ 24 (by omega)
  rw [Nat.lor_assoc, Nat.lor_assoc, h1, h2, h3]
  ring

/-- C6 counterexample: the dotted-quad string `08.8.8.8` is accepted by
`ip_to_u32` (Rust integer parsing tolerates leading zeros), yet rendering
the parsed value back with `u32_to_ip` yields `8.8.8.8`, not the original
string — the string-direction round-trip fails on this valid input. -/
theorem ip_roundtrip_counterexample :
    ip_to_u32 ("08.8.8.8".toList) = .ok 134744072 ∧
    u32_to_ip 134744072 ≠ "08.8.8.8".toList ∧
    u32_to_ip 134744072 = "8.8.8.8".toList := by decide

/-- C6 (amended): the numeric direction of the address round-trip holds
universally — rendering any 32-bit value with `u32_to_ip` and re-parsing
with `ip_to_u32` recovers the value — and consequently the string
direction holds exactly for canonical dotted-quad strings, those in the
image of `u32_to_ip` (octets written without leading zeros or signs). -/
theorem ip_roundtrip_amended :
    (∀ n : Nat, n < 2 ^ 32 → ip_to_u32 (u32_to_ip n) = .ok n) ∧
    (∀ s : List Char, (∃ n : Nat, n < 2 ^ 32 ∧ s = u32_to_ip n) →
      ∃ m : Nat, ip_to_u32 s = .ok m ∧ u32_to_ip m = s) := by
  have main : ∀ n : Nat, n < 2 ^ 32 → ip_to_u32 (u32_to_ip n) = .ok n := by
    intro n hn
    have e255 : (255 : Nat) = 2 ^ 8 - 1 := by norm_num
    have ha : (n >>> 24) &&& 255 = n / 2 ^ 24 % 2 ^ 8 := by
      rw [e255, Nat.and_pow_two_sub_one_eq_mod, Nat.shiftRight_eq_div_pow]
    have hb : (n >>> 16) &&& 255 = n / 2 ^ 16 % 2 ^ 8 := by
      rw [e255, Nat.and_pow_two_sub_one_eq_mod, Nat.shiftRight_eq_div_pow]
    have hc : (n >>> 8) &&& 255 = n / 2 ^ 8 % 2 ^ 8 := by
      rw [e255, Nat.and_pow_two_sub_one_eq_mod, Nat.shiftRight_eq_div_pow]
    have hd : n &&& 255 = n % 2 ^ 8 := by
      rw [e255, Nat.and_pow_two_sub_one_eq_mod]
    have hA : (n >>> 24) &&& 255 < 256 := by rw [ha]; omega
    have hB : (n >>> 16) &&& 255 < 256 := by rw [hb]; omega
    have hC : (n >>> 8) &&& 255 < 256 := by rw [hc]; omega
    have hD : n &&& 255 < 256 := by rw [hd]; omega
    have hsplit : splitOnChar '.' (u32_to_ip n) =
        [toDecimal ((n >>> 24) &&& 255), toDecimal ((n >>> 16) &&& 255),
          toDecimal ((n >>> 8) &&& 255), toDecimal (n &&& 255)] := by
      rw [u32_to_ip, splitOnChar_append _ _ _ (octet_no_dot _ hA),
        splitOnChar_append _ _ _ (octet_no_dot _ hB),
        splitOnChar_append _ _ _ (octet_no_dot _ hC),
        splitOnChar_no_sep _ _ (octet_no_dot _ hD)]
    rw [ip_to_u32, hsplit]
    simp only [octet_parse_round _ hA, octet_parse_round _ hB,
      octet_parse_round _ hC, octet_parse_round _ hD]
    rw [octets_recombine _ _ _ _ hB hC hD, ha, hb, hc, hd]
    congr 1
    omega
  refine ⟨main, fun s hs => ?_⟩
  obtain ⟨n, hn, rfl⟩ := hs
  exact ⟨n, main n hn, rfl⟩

theorem ip_roundtrip_amended_witness :
    (134744072 : Nat) < 2 ^ 32 ∧ ip_to_u32 (u32_to_ip 134744072) = .ok 134744072 :=
  ⟨by norm_num, ip_roundtrip_amended.1 134744072 (by norm_num)⟩

/-! ## Public Commitment Codec

The `sol!` macro in `lib/src/lib.rs` declares
`struct PublicValuesStruct { bool is_excluded; uint32 timestamp; uint16[] excluded_countries; }`
and `alloy_sol_types` derives `abi_encode` / `abi_decode` for it following
the canonical Solidity contract-ABI tuple encoding named by the spec:
head words for the bool (0 or 1), the uint32, and the byte offset (96) of
the dynamic array; then the array length word followed by one 32-byte word
per `uint16` element, every word 32 bytes big-endian.  The codec body lives
in the external `alloy` crate, so it is modelled here from that canonical
convention.  Bytes are `Nat` values below 256. -/

structure PublicValuesStruct where
  is_excluded : Bool
  timestamp : Nat
  excluded_countries : List Nat
deriving DecidableEq, Repr

def natToBytesBE : Nat → Nat → List Nat
  | 0, _ => []
  | k + 1, n => natToBytesBE k (n / 256) ++ [n % 256]

def bytesToNatBE (bs : List Nat) : Nat :=
  bs.foldl (fun acc b => acc * 256 + b) 0

def abi_encode (r : PublicValuesStruct) : List Nat :=
  natToBytesBE 32 (if r.is_excluded then 1 else 0) ++
    natToBytesBE 32 r.timestamp ++
    natToBytesBE 32 96 ++
    natToBytesBE 32 r.excluded_countries.length ++
    (r.excluded_countries.map (natToBytesBE 32)).flatten

def readWord (bs : List Nat) : Option (Nat × List Nat) :=
  if bs.length < 32 then none
  else some (bytesToNatBE (bs.take 32), bs.drop 32)

def readWords : Nat → List Nat → Option (List Nat × List Nat)
  | 0, bs => some ([], bs)
  | k + 1, bs =>
    match readWord bs with
    | none => none
    | some (w, rest) =>
      match readWords k rest with
      | none => none
      | some (ws, rest') => some (w :: ws, rest')

def abi_decode (bs : List Nat) : Option PublicValuesStruct :=
  match readWord bs with
  | none => none
  | some (b, r1) =>
    if 1 < b then none
    else
      match readWord r1 with
      | none => none
      | some (t, r2) =>
        if 2 ^ 32 ≤ t then none
        else
          match readWord r2 with
          | none => none
          | some (off, r3) =>
            if off ≠ 96 then none
            else
              match readWord r3 with
              | none => none
              | some (len, r4) =>
                match readWords len r4 with
                | none => none
                | some (cs, r5) =>
                  if r5 ≠ [] then none
                  else if cs.all (fun c => c < 2 ^ 16) then
                    some ⟨b == 1, t, cs⟩
                  else none

lemma natToBytesBE_length (k n : Nat) : (natToBytesBE k n).length = k := by
  induction k generalizing n with
  | zero => rfl
  | succ k ih => simp [natToBytesBE, ih]

lemma bytesToNatBE_append_singleton (xs : List Nat) (b : Nat) :
    bytesToNatBE (xs ++ [b]) = bytesToNatBE xs * 256 + b := by
  simp [bytesToNatBE, List.foldl_append]

lemma bytesToNatBE_natToBytesBE (k n : Nat) (h : n < 256 ^ k) :
    bytesToNatBE (natToBytesBE k n) = n := by
  induction k generalizing n with
  | zero =>
    have : n = 0 := by simpa using h
    simp [this, natToBytesBE, bytesToNatBE]
  | succ k ih =>
    have hdiv : n / 256 < 256 ^ k := by
      apply Nat.div_lt_of_lt_mul
      rw [Nat.mul_comm]
      exact (Nat.pow_succ 256 k) ▸ h
    rw [natToBytesBE, bytesToNatBE_append_singleton, ih _ hdiv]
    omega

lemma readWord_append (n : Nat) (rest : List Nat) (h : n < 256 ^ 32) :
    readWord (natToBytesBE 32 n ++ rest) = some (n, rest) := by
  rw [readWord, if_neg, List.take_left' (natToBytesBE_length 32 n),
    List.drop_left' (natToBytesBE_length 32 n), bytesToNatBE_natToBytesBE 32 n h]
  simp [natToBytesBE_length]

lemma readWords_flatten (cs : List Nat) (rest : List Nat)
    (h : ∀ c ∈ cs, c < 256 ^ 32) :
    readWords cs.length ((cs.map (natToBytesBE 32)).flatten ++ rest) =
      some (cs, rest) := by
  induction cs with
  | nil => simp [readWords]
  | cons c tl ih =>
    have hc : c < 256 ^ 32 := h c (List.mem_cons_self c tl)
    have htl : ∀ x ∈ tl, x < 256 ^ 32 := fun x hx => h x (List.mem_cons_of_mem c hx)
    simp only [List.length_cons, List.map_cons, List.flatten_cons, readWords,
      List.append_assoc, readWord_append c _ hc, ih htl]

lemma readWords_flatten_nil (cs : List Nat) (h : ∀ c ∈ cs, c < 256 ^ 32) :
    readWords cs.length (cs.map (natToBytesBE 32)).flatten = some (cs, []) := by
  have := readWords_flatten cs [] h
  rwa [List.append_nil] at this

/-- C3: the Public Commitment Codec round-trips losslessly — decoding the
ABI encoding of any CommitmentRecord recovers it byte-exactly, for any
boolean, any `u32` timestamp (including `0` and `2 ^ 32 - 1`) and any list
of `u16` country codes (including the empty list).  The length bound
`2 ^ 64` reflects that a Rust `Vec` length is a `usize`. -/
theorem abi_roundtrip (r : PublicValuesStruct)
    (ht : r.timestamp < 2 ^ 32)
    (hc : ∀ c ∈ r.excluded_countries, c < 2 ^ 16)
    (hl : r.excluded_countries.length < 2 ^ 64) :
    abi_decode (abi_encode r) = some r := by
  obtain ⟨bex, t, cs⟩ := r
  dsimp only at ht hc hl
  have hb : (if bex then 1 else 0 : Nat) < 256 ^ 32 := by
    cases bex <;> norm_num
  have hguard : ¬(1 < (if bex then 1 else 0 : Nat)) := by
    cases bex <;> simp
  have ht' : t < 256 ^ 32 := lt_of_lt_of_le ht (by norm_num)
  have hoff : (96 : Nat) < 256 ^ 32 := by norm_num
  have hlen : cs.length < 256 ^ 32 := lt_of_lt_of_le hl (by norm_num)
  have hc' : ∀ c ∈ cs, c < 256 ^ 32 :=
    fun c hcm => lt_of_lt_of_le (hc c hcm) (by norm_num)
  have hall : (cs.all fun c => decide (c < 2 ^ 16)) = true := by
    simpa [List.all_eq_true] using hc
  rw [abi_encode, abi_decode]
  simp only [List.append_assoc]
  simp only [readWord_append _ _ hb]
  rw [if_neg hguard]
  simp only [readWord_append _ _ ht']
  rw [if_neg (show ¬2 ^ 32 ≤ t by omega)]
  simp only [readWord_append _ _ hoff]
  rw [if_neg (show ¬(96 : Nat) ≠ 96 by simp)]
  simp only [readWord_append _ _ hlen]
  simp only [readWords_flatten_nil _ hc']
  rw [if_neg (show ¬([] : List Nat) ≠ [] by simp)]
  rw [if_pos hall]
  cases bex <;> simp

/-! ## zkVM program (`program/src/main.rs`)

The guest program reads the private inputs (address and ranges) and the
public inputs (country codes and timestamp), evaluates `is_excluded`, and
commits the ABI encoding of the public values. -/

def program_main (ip : Nat) (excluded_ranges : List (Nat × Nat))
    (excluded_countries : List Nat) (timestamp : Nat) : List Nat :=
  abi_encode ⟨is_excluded ip excluded_ranges, timestamp, excluded_countries⟩

/-! ## Proof Orchestrator, execution-only consistency check
(`script/src/bin/main.rs`, `--execute` branch)

After `client.execute`, the orchestrator ABI-decodes the committed output,
recomputes `zkip_lib::is_excluded` over the same `ip` and
`excluded_ranges`, and `assert_eq!`s the two booleans; the panic of a
failed assertion is modelled as a fatal `Except.error`. -/

def execute_check (output : List Nat) (ip : Nat)
    (excluded_ranges : List (Nat × Nat)) : Except String Unit :=
  match abi_decode output with
  | none => .error "failed to decode public values"
  | some decoded =>
    if decoded.is_excluded == is_excluded ip excluded_ranges then .ok ()
    else .error "assertion failed"

/-- C5: whenever the decoded public `is_excluded` disagrees with the
independently recomputed `is_excluded` over the same private inputs, the
execution-only run halts fatally; and the run proceeds (returns `ok`)
exactly when the output decodes and the two booleans agree. -/
theorem execute_check_spec :
    ∀ (output : List Nat) (ip : Nat) (ranges : List (Nat × Nat)),
      (∀ d, abi_decode output = some d → d.is_excluded ≠ is_excluded ip ranges →
        execute_check output ip ranges = .error "assertion failed") ∧
      (execute_check output ip ranges = .ok () ↔
        ∃ d, abi_decode output = some d ∧ d.is_excluded = is_excluded ip ranges) := by
  intro output ip ranges
  constructor
  · intro d hd hne
    simp only [execute_check, hd]
    rw [if_neg (by simpa using hne)]
  · constructor
    · intro hok
      cases hdec : abi_decode output with
      | none =>
        simp only [execute_check, hdec] at hok
        exact Except.noConfusion hok
      | some d =>
        simp only [execute_check, hdec] at hok
        by_cases hag : d.is_excluded = is_excluded ip ranges
        · exact ⟨d, rfl, hag⟩
        · rw [if_neg (by simpa using hag)] at hok
          simp at hok
    · rintro ⟨d, hd, hag⟩
      simp only [execute_check, hd]
      rw [if_pos (by simpa using hag)]

theorem execute_check_spec_witness :
    abi_decode (abi_encode ⟨false, 0, []⟩) = some ⟨false, 0, []⟩ ∧
    execute_check (abi_encode ⟨false, 0, []⟩) 0 [] = .error "assertion failed" :=
  ⟨by decide,
   (execute_check_spec (abi_encode ⟨false, 0, []⟩) 0 []).1 ⟨false, 0, []⟩ (by decide)
     (by decide)⟩

/-! ## Public timestamp construction (`script/src/bin/main.rs` and
`script/src/bin/evm.rs`)

`SystemTime::now().duration_since(UNIX_EPOCH)` yields `Err` only for a
clock before the epoch (modelled as `none`); otherwise the whole seconds
are narrowed with an unchecked `as u32` cast, i.e. reduced `% 2 ^ 32`. -/

def timestamp_from_clock (duration_since_epoch : Option Nat) : Except String Nat :=
  match duration_since_epoch with
  | none => .error "System clock is before Unix epoch"
  | some secs => .ok (secs % 2 ^ 32)

/-- C10: for any whole-second duration since the epoch the conversion
succeeds with the seconds reduced modulo `2 ^ 32`; durations of `2 ^ 32`
seconds or more wrap silently (the produced value differs from the true
seconds) rather than error. -/
theorem timestamp_cast_spec :
    (∀ s : Nat, timestamp_from_clock (some s) = .ok (s % 2 ^ 32)) ∧
    (∀ s : Nat, 2 ^ 32 ≤ s →
      timestamp_from_clock (some s) = .ok (s % 2 ^ 32) ∧ s % 2 ^ 32 ≠ s) := by
  refine ⟨fun s => rfl, fun s hs => ⟨rfl, ?_⟩⟩
  have : s % 2 ^ 32 < 2 ^ 32 := Nat.mod_lt _ (by norm_num)
  omega

theorem timestamp_cast_spec_witness :
    (2 ^ 32 ≤ 2 ^ 32 + 5) ∧
    timestamp_from_clock (some (2 ^ 32 + 5)) = .ok ((2 ^ 32 + 5) % 2 ^ 32) ∧
    (2 ^ 32 + 5) % 2 ^ 32 ≠ 2 ^ 32 + 5 :=
  ⟨by norm_num, (timestamp_cast_spec.2 (2 ^ 32 + 5) (by norm_num)).1,
   (timestamp_cast_spec.2 (2 ^ 32 + 5) (by norm_num)).2⟩

theorem abi_roundtrip_witness :
    ((4294967295 : Nat) < 2 ^ 32 ∧ (∀ c ∈ [(250 : Nat)], c < 2 ^ 16) ∧
      ([(250 : Nat)].length < 2 ^ 64)) ∧
    abi_decode (abi_encode ⟨true, 4294967295, [250]⟩) =
      some ⟨true, 4294967295, [250]⟩ :=
  ⟨⟨by norm_num, by decide, by norm_num⟩,
   abi_roundtrip ⟨true, 4294967295, [250]⟩ (by norm_num) (by decide) (by norm_num)⟩

/-! ## Reference-table loader (`load_country_codes` in
`script/src/bin/main.rs` and, identically, `script/src/bin/evm.rs`)

The CSV lines (already read; I/O errors are outside the row-content
behaviour at issue) are processed in order, skipping the header (row 0).
A row contributes an entry only when it has at least 4 comma-separated
fields and field 3 parses as a `u16`; the uppercased field 1 maps to that
numeric code in a `HashMap`.  The `HashMap` is modelled as an association
list where `insert` conses in front, so `List.lookup` (first match) is
exactly the lookup of the most recent insertion. -/

def parseRow (line : List Char) : Option (List Char × Nat) :=
  match splitOnChar ',' line with
  | _f0 :: f1 :: _f2 :: f3 :: _ =>
    match parseNatRust 65536 f3 with
    | some numeric => some (f1.map Char.toUpper, numeric)
    | none => none
  | _ => none

def load_country_codes (lines : List (List Char)) : List (List Char × Nat) :=
  (lines.drop 1).foldl
    (fun codes line =>
      match parseRow line with
      | some entry => entry :: codes
      | none => codes)
    []

def validEntries (lines : List (List Char)) : List (List Char × Nat) :=
  (lines.drop 1).filterMap parseRow

/-! ## Country Code Resolver (`parse_excluded_countries` in
`script/src/bin/main.rs` and, identically, `script/src/bin/evm.rs`)

The comma-separated argument is split; each piece is trimmed and
uppercased; blank pieces are skipped; the first unknown code aborts with
`Unknown country code`; an empty numeric result aborts with
`No valid country codes provided`.  The country-code table (the `HashMap`
built by `load_country_codes`) is passed as an association list. -/

def isWsChar (c : Char) : Bool :=
  c = ' ' || c = '\t' || c = '\n' || c = '\r'

def trimChars (l : List Char) : List Char :=
  ((l.dropWhile isWsChar).reverse.dropWhile isWsChar).reverse

def resolveLoop (country_codes : List (List Char × Nat)) :
    List (List Char) → Except String (List (List Char) × List Nat)
  | [] => .ok ([], [])
  | piece :: rest =>
    let code := (trimChars piece).map Char.toUpper
    if code.isEmpty then resolveLoop country_codes rest
    else
      match List.lookup code country_codes with
      | some numeric =>
        match resolveLoop country_codes rest with
        | .ok (alpha2_codes, numeric_codes) =>
          .ok (code :: alpha2_codes, numeric :: numeric_codes)
        | .error e => .error e
      | none => .error ("Unknown country code: " ++ String.mk code)

def parse_excluded_countries (country_codes : List (List Char × Nat))
    (exclude_arg : List Char) : Except String (List (List Char) × List Nat) :=
  match resolveLoop country_codes (splitOnChar ',' exclude_arg) with
  | .ok (alpha2_codes, numeric_codes) =>
    if numeric_codes.isEmpty then .error "No valid country codes provided"
    else .ok (alpha2_codes, numeric_codes)
  | .error e => .error e

/-- The codes that survive normalization: split on commas, trim,
uppercase, drop blanks. -/
def normalizedCodes (exclude_arg : List Char) : List (List Char) :=
  ((splitOnChar ',' exclude_arg).map
    (fun p => (trimChars p).map Char.toUpper)).filter (fun c => !c.isEmpty)

/-! ## Range Source loader (`load_ip_ranges_for_countries` in
`script/src/bin/main.rs` and, identically, `script/src/bin/evm.rs`)

Each line is split on commas; lines with fewer than 3 fields are passed
over by the `if fields.len() >= 3` guard; for lines whose uppercased third
field is one of the requested codes the first two fields are parsed as
`u32`, a failure aborting the whole load with `Invalid start IP` /
`Invalid end IP`. -/

/-- Bound of the `u32` target type of `str::parse::<u32>()`. -/
def u32Bound : Nat := 2 ^ 32

def load_ip_ranges_for_countries (lines : List (List Char))
    (country_codes : List (List Char)) : Except String (List (Nat × Nat)) :=
  match lines with
  | [] => .ok []
  | line :: rest =>
    match splitOnChar ',' line with
    | f0 :: f1 :: f2 :: _ =>
      if country_codes.contains (f2.map Char.toUpper) then
        match parseNatRust u32Bound f0 with
        | none => .error "Invalid start IP"
        | some s =>
          match parseNatRust u32Bound f1 with
          | none => .error "Invalid end IP"
          | some e =>
            match load_ip_ranges_for_countries rest country_codes with
            | .ok ranges => .ok ((s, e) :: ranges)
            | .error err => .error err
      else load_ip_ranges_for_countries rest country_codes
    | _ => load_ip_ranges_for_countries rest country_codes

/-- A row that aborts the load: at least 3 fields, matching country, and a
start or end bound that does not parse as `u32`. -/
def rowBad (country_codes : List (List Char)) (line : List Char) : Bool :=
  match splitOnChar ',' line with
  | f0 :: f1 :: f2 :: _ =>
    country_codes.contains (f2.map Char.toUpper) &&
      ((parseNatRust u32Bound f0).isNone || (parseNatRust u32Bound f1).isNone)
  | _ => false

/-- The range a row contributes when it is kept. -/
def rowRange (country_codes : List (List Char)) (line : List Char) :
    Option (Nat × Nat) :=
  match splitOnChar ',' line with
  | f0 :: f1 :: f2 :: _ =>
    if country_codes.contains (f2.map Char.toUpper) then
      match parseNatRust u32Bound f0, parseNatRust u32Bound f1 with
      | some s, some e => some (s, e)
      | _, _ => none
    else none
  | _ => none

/-! ## Dataset cache policy (`is_cache_stale` and `ensure_geoip_database`
in `script/src/bin/main.rs` and, identically, `script/src/bin/evm.rs`)

`is_cache_stale` is a function of the file's modification time and the
current time: `modified = none` models `fs::metadata` or `modified()`
failing; `now < m` models `SystemTime::now().duration_since(modified)`
returning `Err` (a modification time in the future); otherwise the age is
compared against `CACHE_MAX_AGE_DAYS = 30` days of seconds.
`ensure_geoip_database` takes the fetch outcome as a parameter (the remote
fetch is an external collaborator); it returns `ok warned` where `warned`
records the stale-cache warning path, and `error` models the fatal
failure. -/

def is_cache_stale (modified : Option Nat) (now : Nat) : Bool :=
  match modified with
  | none => true
  | some m => if now < m then true else decide (now - m > 30 * 24 * 60 * 60)

def ensure_geoip_database (refresh exists_cache : Bool) (modified : Option Nat)
    (now : Nat) (fetch_result : Except String Unit) : Except String Bool :=
  if refresh || !exists_cache || is_cache_stale modified now then
    match fetch_result with
    | .ok _ => .ok false
    | .error e => if exists_cache then .ok true else .error e
  else .ok false

lemma load_country_codes_foldl (rows : List (List Char))
    (acc : List (List Char × Nat)) :
    rows.foldl
        (fun codes line =>
          match parseRow line with
          | some entry => entry :: codes
          | none => codes)
        acc =
      (rows.filterMap parseRow).reverse ++ acc := by
  induction rows generalizing acc with
  | nil => simp
  | cons row rest ih =>
    cases hrow : parseRow row with
    | none => simp [List.filterMap_cons, hrow, ih]
    | some entry => simp [List.filterMap_cons, hrow, ih]

/-- C9: the reference-table loader is insensitive to malformed rows —
`load_country_codes` builds exactly the reversed insertion list of the
valid rows (so a row with fewer than 4 fields or a non-`u16` fourth field
contributes nothing and causes no failure), deleting a malformed row
leaves the result unchanged, and when two valid rows map the same
uppercased alpha-2 code the later row's numeric value is the one the map
lookup returns. -/
theorem load_country_codes_spec :
    (∀ lines : List (List Char),
      load_country_codes lines = (validEntries lines).reverse) ∧
    (∀ (hdr mal : List Char) (pre post : List (List Char)),
      parseRow mal = none →
      load_country_codes (hdr :: pre ++ mal :: post) =
        load_country_codes (hdr :: pre ++ post)) ∧
    (∀ (hdr r1 r2 : List Char) (pre mid : List (List Char))
        (k : List Char) (v1 v2 : Nat),
      parseRow r1 = some (k, v1) → parseRow r2 = some (k, v2) →
      List.lookup k (load_country_codes (hdr :: pre ++ r1 :: mid ++ [r2])) =
        some v2) := by
  have hmain : ∀ lines : List (List Char),
      load_country_codes lines = (validEntries lines).reverse := by
    intro lines
    rw [load_country_codes, validEntries, load_country_codes_foldl,
      List.append_nil]
  refine ⟨hmain, fun hdr mal pre post hmal => ?_, ?_⟩
  · rw [hmain, hmain, validEntries, validEntries]
    simp [List.filterMap_append, List.filterMap_cons, hmal]
  · intro hdr r1 r2 pre mid k v1 v2 h1 h2
    rw [hmain, validEntries]
    simp [List.filterMap_append, List.filterMap_cons, h1, h2,
      List.reverse_append, List.lookup]

theorem load_country_codes_spec_witness :
    (parseRow ("AA,FR,B,111".toList) = some ("FR".toList, 111) ∧
      parseRow ("AA,FR,B,222".toList) = some ("FR".toList, 222)) ∧
    List.lookup ("FR".toList)
        (load_country_codes
          ["hdr".toList, "AA,FR,B,111".toList, "bad".toList,
            "AA,FR,B,222".toList]) = some 222 :=
  ⟨⟨by decide, by decide⟩,
   load_country_codes_spec.2.2 ("hdr".toList) ("AA,FR,B,111".toList)
     ("AA,FR,B,222".toList) [] ["bad".toList] ("FR".toList) 111 222
     (by decide) (by decide)⟩

lemma resolveLoop_ok (table : List (List Char × Nat)) (pieces : List (List Char))
    (h : ∀ c ∈ ((pieces.map fun p => (trimChars p).map Char.toUpper).filter
        fun c => !c.isEmpty), (List.lookup c table).isSome) :
    resolveLoop table pieces =
      .ok (((pieces.map fun p => (trimChars p).map Char.toUpper).filter
          fun c => !c.isEmpty),
        (((pieces.map fun p => (trimChars p).map Char.toUpper).filter
          fun c => !c.isEmpty).map fun c => (List.lookup c table).getD 0)) := by
  induction pieces with
  | nil => rfl
  | cons p rest ih =>
    by_cases hemp : ((trimChars p).map Char.toUpper).isEmpty
    · rw [resolveLoop, if_pos hemp]
      rw [List.map_cons, List.filter_cons] at h ⊢
      rw [hemp] at h ⊢
      simp only [Bool.not_true, Bool.false_eq_true, if_neg] at h ⊢
      exact ih h
    · have hne : (!((trimChars p).map Char.toUpper).isEmpty) = true := by
        simp [hemp]
      rw [List.map_cons, List.filter_cons] at h ⊢
      rw [hne] at h ⊢
      simp only [if_pos] at h ⊢
      have hhead : (List.lookup ((trimChars p).map Char.toUpper) table).isSome :=
        h _ (List.mem_cons_self _ _)
      obtain ⟨numeric, hnum⟩ := Option.isSome_iff_exists.mp hhead
      have hrest : ∀ c ∈ ((rest.map fun p => (trimChars p).map Char.toUpper).filter
          fun c => !c.isEmpty), (List.lookup c table).isSome :=
        fun c hc => h c (List.mem_cons_of_mem _ hc)
      rw [resolveLoop, if_neg hemp, hnum, ih hrest]
      simp [hnum]

lemma resolveLoop_err (table : List (List Char × Nat)) (pieces : List (List Char))
    (h : ∃ c ∈ ((pieces.map fun p => (trimChars p).map Char.toUpper).filter
        fun c => !c.isEmpty), List.lookup c table = none) :
    ∃ e, resolveLoop table pieces = .error e := by
  induction pieces with
  | nil => simp at h
  | cons p rest ih =>
    by_cases hemp : ((trimChars p).map Char.toUpper).isEmpty
    · rw [resolveLoop, if_pos hemp]
      apply ih
      rw [List.map_cons, List.filter_cons, hemp] at h
      simpa using h
    · rw [resolveLoop, if_neg hemp]
      cases hlk : List.lookup ((trimChars p).map Char.toUpper) table with
      | none => exact ⟨_, rfl⟩
      | some numeric =>
        have hne : (!((trimChars p).map Char.toUpper).isEmpty) = true := by
          simp [hemp]
        rw [List.map_cons, List.filter_cons, hne] at h
        simp only [if_pos] at h
        obtain ⟨c, hc, hcn⟩ := h
        rcases List.mem_cons.mp hc with hceq | hcr
        · rw [hceq] at hcn
          rw [hcn] at hlk
          exact Option.noConfusion hlk
        · obtain ⟨e, he⟩ := ih ⟨c, hcr, hcn⟩
          rw [he]
          exact ⟨e, rfl⟩

/-- C7: country-code resolution fails exactly when, after trimming,
uppercasing and dropping blank entries, some surviving code is absent
from the reference table (unknown-country-code error) or no valid code
survives (empty-country-set error); otherwise it succeeds, returning the
normalized alpha-2 codes and their numeric codes in input order with
duplicates preserved. -/
theorem parse_excluded_countries_spec :
    ∀ (table : List (List Char × Nat)) (arg : List Char),
      ((∃ e, parse_excluded_countries table arg = .error e) ↔
        (∃ c ∈ normalizedCodes arg, List.lookup c table = none) ∨
          normalizedCodes arg = []) ∧
      ((∀ c ∈ normalizedCodes arg, (List.lookup c table).isSome) →
        normalizedCodes arg ≠ [] →
        parse_excluded_countries table arg =
          .ok (normalizedCodes arg,
            (normalizedCodes arg).map fun c => (List.lookup c table).getD 0)) := by
  intro table arg
  have hnorm : normalizedCodes arg =
      ((splitOnChar ',' arg).map fun p => (trimChars p).map Char.toUpper).filter
        (fun c => !c.isEmpty) := rfl
  have hokk : (∀ c ∈ normalizedCodes arg, (List.lookup c table).isSome) →
      normalizedCodes arg ≠ [] →
      parse_excluded_countries table arg =
        .ok (normalizedCodes arg,
          (normalizedCodes arg).map fun c => (List.lookup c table).getD 0) := by
    intro hall hne
    have hall' := hall
    rw [hnorm] at hall'
    have hres := resolveLoop_ok table (splitOnChar ',' arg) hall'
    rw [← hnorm] at hres
    simp only [parse_excluded_countries, hres]
    rw [if_neg]
    simp only [Bool.not_eq_true, List.isEmpty_eq_false, ne_eq, List.map_eq_nil_iff]
    exact hne
  refine ⟨⟨fun hex => ?_, fun hd => ?_⟩, hokk⟩
  · by_cases hunk : ∃ c ∈ normalizedCodes arg, List.lookup c table = none
    · exact Or.inl hunk
    · right
      by_contra hne
      have hall : ∀ c ∈ normalizedCodes arg, (List.lookup c table).isSome := by
        intro c hc
        cases hlc : List.lookup c table with
        | none => exact absurd ⟨c, hc, hlc⟩ hunk
        | some v => rfl
      obtain ⟨e, he⟩ := hex
      rw [hokk hall hne] at he
      exact Except.noConfusion he
  · rcases hd with hunk | hempty
    · have hunk' := hunk
      rw [hnorm] at hunk'
      obtain ⟨e, he⟩ := resolveLoop_err table (splitOnChar ',' arg) hunk'
      refine ⟨e, ?_⟩
      simp only [parse_excluded_countries, he]
    · have hres := resolveLoop_ok table (splitOnChar ',' arg)
        (by rw [← hnorm, hempty]; intro c hc; cases hc)
      rw [← hnorm, hempty] at hres
      refine ⟨"No valid country codes provided", ?_⟩
      simp only [parse_excluded_countries, hres, List.map_nil, List.isEmpty_nil,
        if_pos]

theorem parse_excluded_countries_spec_witness :
    ((∀ c ∈ normalizedCodes (" fr ,".toList),
        (List.lookup c [("FR".toList, 250)]).isSome) ∧
      normalizedCodes (" fr ,".toList) ≠ []) ∧
    parse_excluded_countries [("FR".toList, 250)] (" fr ,".toList) =
      .ok (normalizedCodes (" fr ,".toList),
        (normalizedCodes (" fr ,".toList)).map
          fun c => (List.lookup c [("FR".toList, 250)]).getD 0) :=
  ⟨⟨by decide, by decide⟩,
   (parse_excluded_countries_spec [("FR".toList, 250)] (" fr ,".toList)).2
     (by decide) (by decide)⟩

/-- C4 counterexample: a row with only 2 fields, and a row with
non-numeric bounds whose country is not among the requested codes, are
both silently skipped — the load succeeds instead of failing as the claim
requires for every malformed row. -/
theorem load_ip_ranges_counterexample :
    load_ip_ranges_for_countries ["1,2".toList] ["FR".toList] = .ok [] ∧
    load_ip_ranges_for_countries ["abc,def,DE".toList] ["FR".toList] = .ok [] := by
  decide

/-- C4 (amended): the load fails (with a parse error) exactly on rows that
have at least 3 fields, whose uppercased country field is among the
requested codes, and whose start or end bound does not parse as `u32`;
rows with fewer than 3 fields, or with a non-matching country, are
silently skipped, and when no aborting row exists the load returns the
parsed ranges of the matching rows in file order. -/
theorem load_ip_ranges_spec :
    ∀ (lines country_codes : List (List Char)),
      ((∀ l ∈ lines, rowBad country_codes l = false) →
        load_ip_ranges_for_countries lines country_codes =
          .ok (lines.filterMap (rowRange country_codes))) ∧
      ((∃ l ∈ lines, rowBad country_codes l = true) →
        ∃ e, load_ip_ranges_for_countries lines country_codes = .error e) := by
  intro lines cc
  induction lines with
  | nil =>
    refine ⟨fun _ => rfl, ?_⟩
    rintro ⟨l, hl, _⟩
    cases hl
  | cons line rest ih =>
    constructor
    · intro hall
      have hline := hall line (List.mem_cons_self _ _)
      have hrest := ih.1 fun l hl => hall l (List.mem_cons_of_mem _ hl)
      rcases hsp : splitOnChar ',' line with _ | ⟨f0, _ | ⟨f1, _ | ⟨f2, fs⟩⟩⟩
      · simp [load_ip_ranges_for_countries, List.filterMap_cons, rowRange,
          hsp, hrest]
      · simp [load_ip_ranges_for_countries, List.filterMap_cons, rowRange,
          hsp, hrest]
      · simp [load_ip_ranges_for_countries, List.filterMap_cons, rowRange,
          hsp, hrest]
      · simp only [rowBad, hsp] at hline
        cases hcont : cc.contains (f2.map Char.toUpper) with
        | false =>
          have hmem : (f2.map Char.toUpper) ∉ cc := by simpa using hcont
          simp [load_ip_ranges_for_countries, List.filterMap_cons, rowRange,
            hsp, hcont, hmem, hrest]
        | true =>
          rw [hcont, Bool.true_and] at hline
          have hmem : (f2.map Char.toUpper) ∈ cc := by simpa using hcont
          cases hp0 : parseNatRust u32Bound f0 with
          | none => rw [hp0] at hline; simp at hline
          | some s =>
            cases hp1 : parseNatRust u32Bound f1 with
            | none => rw [hp0, hp1] at hline; simp at hline
            | some e =>
              simp [load_ip_ranges_for_countries, List.filterMap_cons,
                rowRange, hsp, hcont, hmem, hp0, hp1, hrest]
    · rintro ⟨l, hl, hbad⟩
      rcases List.mem_cons.mp hl with rfl | hlr
      · rcases hsp : splitOnChar ',' l with _ | ⟨f0, _ | ⟨f1, _ | ⟨f2, fs⟩⟩⟩
        · simp [rowBad, hsp] at hbad
        · simp [rowBad, hsp] at hbad
        · simp [rowBad, hsp] at hbad
        · simp only [rowBad, hsp] at hbad
          have hcont : cc.contains (f2.map Char.toUpper) = true := by
            cases hco : cc.contains (f2.map Char.toUpper) with
            | false => rw [hco] at hbad; simp at hbad
            | true => rfl
          rw [hcont, Bool.true_and] at hbad
          have hmem2 : (f2.map Char.toUpper) ∈ cc := by simpa using hcont
          cases hp0 : parseNatRust u32Bound f0 with
          | none =>
            exact ⟨"Invalid start IP",
              by simp [load_ip_ranges_for_countries, hsp, hmem2, hp0]⟩
          | some s =>
            cases hp1 : parseNatRust u32Bound f1 with
            | none =>
              exact ⟨"Invalid end IP",
                by simp [load_ip_ranges_for_countries, hsp, hmem2, hp0, hp1]⟩
            | some e =>
              rw [hp0, hp1] at hbad
              simp at hbad
      · obtain ⟨e, he⟩ := ih.2 ⟨l, hlr, hbad⟩
        rcases hsp : splitOnChar ',' line with _ | ⟨f0, _ | ⟨f1, _ | ⟨f2, fs⟩⟩⟩
        · exact ⟨e, by simp [load_ip_ranges_for_countries, hsp, he]⟩
        · exact ⟨e, by simp [load_ip_ranges_for_countries, hsp, he]⟩
        · exact ⟨e, by simp [load_ip_ranges_for_countries, hsp, he]⟩
        · cases hcont : cc.contains (f2.map Char.toUpper) with
          | false =>
            have hmem3 : (f2.map Char.toUpper) ∉ cc := by simpa using hcont
            exact ⟨e, by simp [load_ip_ranges_for_countries, hsp, hmem3, he]⟩
          | true =>
            have hmem3 : (f2.map Char.toUpper) ∈ cc := by simpa using hcont
            cases hp0 : parseNatRust u32Bound f0 with
            | none =>
              exact ⟨"Invalid start IP",
                by simp [load_ip_ranges_for_countries, hsp, hmem3, hp0]⟩
            | some s =>
              cases hp1 : parseNatRust u32Bound f1 with
              | none =>
                exact ⟨"Invalid end IP",
                  by simp [load_ip_ranges_for_countries, hsp, hmem3, hp0, hp1]⟩
              | some e2 =>
                exact ⟨e, by simp [load_ip_ranges_for_countries, hsp, hmem3,
                  hp0, hp1, he]⟩

theorem load_ip_ranges_spec_witness :
    ((∀ l ∈ ["1534132224,1534140415,FR".toList],
        rowBad ["FR".toList] l = false) ∧
      load_ip_ranges_for_countries ["1534132224,1534140415,FR".toList]
          ["FR".toList] =
        .ok (["1534132224,1534140415,FR".toList].filterMap
          (rowRange ["FR".toList]))) ∧
    ((∃ l ∈ ["x,2,FR".toList], rowBad ["FR".toList] l = true) ∧
      ∃ e, load_ip_ranges_for_countries ["x,2,FR".toList] ["FR".toList] =
        .error e) :=
  ⟨⟨by decide, (load_ip_ranges_spec ["1534132224,1534140415,FR".toList]
      ["FR".toList]).1 (by decide)⟩,
   ⟨by decide, (load_ip_ranges_spec ["x,2,FR".toList] ["FR".toList]).2
      (by decide)⟩⟩

/-- C8 counterexample: a cache file that exists, with readable metadata
and a modification time in the future of the current clock (`modified =
200`, `now = 100`), is treated as stale by the code even though it exists
and is not older than 30 days — refuting the claimed "exactly when it
does not exist or is older than 30 days". -/
theorem is_cache_stale_counterexample :
    is_cache_stale (some 200) 100 = true ∧
    ¬((200 : Nat) + 30 * 24 * 60 * 60 < 100) := by decide

/-- C8 (amended): the cache is treated as stale exactly when its metadata
or modification time cannot be read (which covers a missing file), its
modification time is in the future of the current clock, or its age
exceeds 30 days; the forced-refresh flag (or a missing file) triggers the
refetch regardless; when the refetch branch is taken, a fetch failure is
downgraded to a warning if a cache file exists and is fatal otherwise,
while outside that branch the fetch outcome is irrelevant. -/
theorem cache_policy_spec :
    (∀ (modified : Option Nat) (now : Nat),
      is_cache_stale modified now = true ↔
        modified = none ∨
          ∃ m, modified = some m ∧ (now < m ∨ now - m > 30 * 24 * 60 * 60)) ∧
    (∀ (refresh exists_cache : Bool) (modified : Option Nat) (now : Nat)
        (fetch : Except String Unit),
      ((refresh || !exists_cache || is_cache_stale modified now) = false →
        ensure_geoip_database refresh exists_cache modified now fetch =
          .ok false) ∧
      ((refresh || !exists_cache || is_cache_stale modified now) = true →
        (fetch = .ok () →
          ensure_geoip_database refresh exists_cache modified now fetch =
            .ok false) ∧
        (∀ e, fetch = .error e →
          (exists_cache = true →
            ensure_geoip_database refresh exists_cache modified now fetch =
              .ok true) ∧
          (exists_cache = false →
            ensure_geoip_database refresh exists_cache modified now fetch =
              .error e)))) := by
  constructor
  · intro modified now
    cases modified with
    | none => simp [is_cache_stale]
    | some m =>
      rw [is_cache_stale]
      by_cases hlt : now < m
      · simp [hlt]
      · simp only [if_neg hlt, decide_eq_true_eq]
        constructor
        · intro hage
          exact Or.inr ⟨m, rfl, Or.inr hage⟩
        · rintro (hn | ⟨m2, hm2, hcase⟩)
          · exact Option.noConfusion hn
          · obtain rfl : m2 = m := by injection hm2 with h; exact h.symm
            rcases hcase with h | h
            · exact absurd h hlt
            · exact h
  · intro refresh exists_cache modified now fetch
    constructor
    · intro hcond
      rw [ensure_geoip_database.eq_def, if_neg (by simp [hcond])]
    · intro hcond
      constructor
      · intro hfetch
        rw [ensure_geoip_database.eq_def, if_pos (by simp [hcond]), hfetch]
      · intro e hfetch
        constructor
        · intro hex
          rw [ensure_geoip_database.eq_def, if_pos (by simp [hcond]), hfetch, hex]
          simp
        · intro hex
          rw [ensure_geoip_database.eq_def, if_pos (by simp [hcond]), hfetch, hex]
          simp

theorem cache_policy_spec_witness :
    ((true || !true || is_cache_stale (some 50) 100) = true ∧
      (Except.error "HTTP error" : Except String Unit) = .error "HTTP error" ∧
      ensure_geoip_database true true (some 50) 100
        (.error "HTTP error") = .ok true) ∧
    ((false || !true || is_cache_stale (some 50) 100) = false ∧
      ensure_geoip_database false true (some 50) 100
        (.error "HTTP error") = .ok false) :=
  ⟨⟨by decide, rfl,
    (((cache_policy_spec.2 true true (some 50) 100 (.error "HTTP error")).2
        (by decide)).2 "HTTP error" rfl).1 rfl⟩,
   ⟨by decide,
    (cache_policy_spec.2 false true (some 50) 100 (.error "HTTP error")).1
      (by decide)⟩⟩
